import Mathlib

/-!
Shallow embedding of the recipe-chain tracing code of the Schedule 1
Calculator (`src/app.py` and `src/models.py`).

Python's mutable state is made explicit:
* `find_original_strain` shares ONE mutable `visited` set across all
  recursive calls, so its embedding `findStrainShared` threads the visited
  list through every call and returns the updated list;
* `trace_ingredients_backwards` copies `visited` at the top of each call
  (`local_visited = visited.copy()`), so its embedding only passes the
  visited list downwards;
* Python floats are modelled as rationals, Python `None`-able strings as
  `Option String`, and Python string truthiness (`if mixer:`) as
  "`some` of a non-empty string".  Where a property depends on IEEE-754
  rounding rather than on exact values, binary64 arithmetic is modelled
  exactly (`floatRound` below) on top of the stored rational values;

Unbounded recursion is modelled with fuel; termination of the Python code
is the theorem that the result is fuel-independent once the fuel reaches a
bound computed from the edge list.
-/

namespace Schedule1

/-- One entry of the `mix_recipes` edge list: a dict with keys
`Output`, `Product`, `Mixer`, each possibly absent (`recipe.get(...)`). -/
structure Recipe where
  output : Option String
  product : Option String
  mixer : Option String
deriving DecidableEq, Repr

/-- Python truthiness of an optional string: `None` and `""` are falsy. -/
def truthy : Option String → Bool
  | none => false
  | some s => s != ""

/-- The fixed base-strain list used by `find_original_strain` (and the
identical `base_drugs` list of `trace_recipe_chain`). -/
def baseStrains : List String :=
  ["ogkush", "sourdiesel", "greencrack", "granddaddypurple", "cocaine", "meth"]

/-- Default `discovered_products` of `trace_recipe_chain`. -/
def defaultDiscovered : List String :=
  ["ogkush", "sourdiesel", "greencrack", "granddaddypurple", "meth", "cocaine"]

/-- One input branch of the `find_original_strain` recipe loop, shared
semantics: a falsy input contributes nothing, a base-strain input is
returned at once, any other input is resolved recursively through `child`,
which also updates the visited list. -/
def sharedChild (child : String → List String → Option String × List String)
    (x : Option String) (v : List String) : Option String × List String :=
  match x with
  | some c =>
    if c ≠ "" then
      if c ∈ baseStrains then (some c, v) else child c v
    else (none, v)
  | none => (none, v)

/-- The recipe loop of `find_original_strain`, SHARED-visited semantics:
iterate over all recipes whose `Output` equals `target` (the Python loop has
no `break`), check the mixer input first and then the product input,
returning the first strain found; the visited list is threaded through the
recursive calls (`child`), exactly as the single mutable Python set is. -/
def strainLoopShared (child : String → List String → Option String × List String) :
    List Recipe → String → List String → Option String × List String
  | [], _, v => (none, v)
  | r :: rs, target, v =>
    if r.output = some target then
      match sharedChild child r.mixer v with
      | (some s, v2) => (some s, v2)
      | (none, v2) =>
        match sharedChild child r.product v2 with
        | (some s, v3) => (some s, v3)
        | (none, v3) => strainLoopShared child rs target v3
    else strainLoopShared child rs target v

/-- `find_original_strain`, shared-visited semantics with fuel.
Mirrors `src/app.py:1592`: the guard `product_id in visited` is checked
first, then `visited.add(product_id)`, then the base-strain test, then the
recipe loop.  Returns the result together with the final visited list. -/
def findStrainShared (recipes : List Recipe) : Nat → String → List String →
    Option String × List String
  | 0, _, v => (none, v)
  | fuel + 1, target, v =>
    if target ∈ v then (none, v)
    else
      let v1 := target :: v
      if target ∈ baseStrains then (some target, v1)
      else strainLoopShared (fun m vm => findStrainShared recipes fuel m vm) recipes target v1

/-- One input branch of the recipe loop under the copy-visited semantics. -/
def copyChild (child : String → Option String) (x : Option String) : Option String :=
  match x with
  | some c =>
    if c ≠ "" then
      if c ∈ baseStrains then some c else child c
    else none
  | none => none

/-- The recipe loop of `find_original_strain` under the COPY-visited
semantics the spec describes: identical traversal order, but the recursive
calls receive the caller's path only, and nothing is threaded back. -/
def strainLoopCopy (child : String → Option String) :
    List Recipe → String → Option String
  | [], _ => none
  | r :: rs, target =>
    if r.output = some target then
      match copyChild child r.mixer with
      | some s => some s
      | none =>
        match copyChild child r.product with
        | some s => some s
        | none => strainLoopCopy child rs target
    else strainLoopCopy child rs target

/-- `find_original_strain` as the spec describes it: every recursive call
operates on an independent copy of the visited set (the current path), so
sibling branches never see each other's visited state. -/
def findStrainCopy (recipes : List Recipe) : Nat → String → List String → Option String
  | 0, _, _ => none
  | fuel + 1, target, path =>
    if target ∈ path then none
    else if target ∈ baseStrains then some target
    else strainLoopCopy (fun m => findStrainCopy recipes fuel m (target :: path)) recipes target

/-- Fuel sufficient for a traversal whose visited set already contains `v`:
one more than the number of distinct recipe outputs not yet visited. -/
def strainFuel (recipes : List Recipe) (v : List String) : Nat :=
  ((recipes.filterMap Recipe.output).dedup).countP (fun o => decide (o ∉ v)) + 1

/-- A node is dead for a path when the copy-semantics resolver finds
nothing from it, whatever the fuel. -/
def Dead (recipes : List Recipe) (path : List String) (q : String) : Prop :=
  ∀ g, findStrainCopy recipes g q path = none

/-- Simulation invariant between the shared visited list `v` and the
copy-semantics path: the path is contained in the visited list, and every
visited node off the path is dead for the path. -/
def Inv (recipes : List Recipe) (path v : List String) : Prop :=
  path ⊆ v ∧ ∀ q ∈ v, q ∉ path → Dead recipes path q

/-- Top-level `find_original_strain(product_id, mix_recipes)`: fresh empty
visited set, enough fuel for the whole edge list. -/
def find_original_strain (recipes : List Recipe) (target : String) : Option String :=
  (findStrainShared recipes (recipes.length + 1) target []).1

/-- Top-level copy-semantics resolver (the behaviour the spec claims). -/
def findOriginalStrainCopy (recipes : List Recipe) (target : String) : Option String :=
  findStrainCopy recipes (recipes.length + 1) target []

/-- The `Product` block of `trace_ingredients_backwards`: a known product
is expanded recursively (appending to the accumulator), a truthy leaf input
goes into the temporary buffer. Returns (accumulator, buffer). -/
def traceProductStep (recurse : String → List String → List String)
    (drugs : List String) (x : Option String) (ids : List String) :
    List String × List String :=
  match x with
  | some p =>
    if p ≠ "" then
      if p ∈ drugs then (recurse p ids, []) else (ids, [p])
    else (ids, [])
  | none => (ids, [])

/-- The `Mixer` block of `trace_ingredients_backwards`, run on the state
left by the product block. -/
def traceMixerStep (recurse : String → List String → List String)
    (drugs : List String) (x : Option String) (st : List String × List String) :
    List String × List String :=
  match x with
  | some m =>
    if m ≠ "" then
      if m ∈ drugs then (recurse m st.1, st.2) else (st.1, st.2 ++ [m])
    else st
  | none => st

/-- `trace_ingredients_backwards` (`src/app.py:1541`) with fuel.
`drugs` is the `discovered_products`/`known_base_ids` list; `ids` is the
accumulator `ingredient_ids` (appended to, and returned); `visited` is
copied per call in Python, so here it is only passed downwards.  Only the
FIRST recipe whose `Output` matches is processed (the loop `break`s); the
product input is recursed first, then the mixer input, and the buffered
leaf inputs are appended reversed. -/
def traceIngredients (recipes : List Recipe) (drugs : List String) :
    Nat → String → List String → List String → List String
  | 0, _, ids, _ => ids
  | fuel + 1, target, ids, visited =>
    if target ∈ visited then ids
    else
      let v := target :: visited
      match recipes.find? (fun r => r.output = some target) with
      | none => ids
      | some r =>
        let st := traceMixerStep (fun x acc => traceIngredients recipes drugs fuel x acc v)
          drugs r.mixer
          (traceProductStep (fun x acc => traceIngredients recipes drugs fuel x acc v)
            drugs r.product ids)
        st.1 ++ st.2.reverse

/-- Top-level `trace_ingredients_backwards` call as `trace_recipe_chain`
makes it: empty accumulator, empty visited set, enough fuel. -/
def trace_ingredients_backwards (recipes : List Recipe) (drugs : List String)
    (target : String) : List String :=
  traceIngredients recipes drugs (recipes.length + 1) target [] []

/-! ## The data model of `src/models.py` (floats modelled as rationals) -/

/-- `models.Ingredient`: name, quantity, unit price. -/
structure Ingredient where
  name : String
  quantity : ℚ
  unit_price : ℚ
deriving DecidableEq, Repr

/-- `Ingredient.total_cost`: `quantity * unit_price`. -/
def Ingredient.total_cost (i : Ingredient) : ℚ :=
  i.quantity * i.unit_price

/-- `models.Effect`. -/
structure Effect where
  name : String
  description : String
  color : String
deriving DecidableEq, Repr

/-- `models.Drug`. -/
structure Drug where
  name : String
  base_price : ℚ
  ingredients : List Ingredient
  effects : List Effect
  notes : String
  drug_type : String
  favorite : Bool
deriving DecidableEq, Repr

/-- `Drug.ingredient_cost`: sum of the total costs of all ingredients. -/
def Drug.ingredient_cost (d : Drug) : ℚ :=
  (d.ingredients.map Ingredient.total_cost).sum

/-- `Drug.profit_margin`: `0` when the ingredient cost is `0`, otherwise
`((base_price - ingredient_cost) / ingredient_cost) * 100`. -/
def Drug.profit_margin (d : Drug) : ℚ :=
  if d.ingredient_cost = 0 then 0
  else ((d.base_price - d.ingredient_cost) / d.ingredient_cost) * 100

/-- `IngredientDatabase.get_ingredient`: first ingredient of the catalog
list whose name matches, else `None`. -/
def get_ingredient (db : List Ingredient) (nm : String) : Option Ingredient :=
  db.find? (fun i => i.name = nm)

/-- Python `str.capitalize()`: first character upper-cased, the rest
lower-cased. -/
def pyCapitalize (s : String) : String :=
  match s.data with
  | [] => ""
  | c :: cs => String.mk (c.toUpper :: cs.map Char.toLower)

/-! ## `trace_recipe_chain` (`src/app.py:1364`) -/

/-- `map_base_drug_to_type`: base drug ids to display drug types. -/
def map_base_drug_to_type (drug_id : String) : String :=
  if drug_id = "ogkush" then "OG Kush"
  else if drug_id = "sourdiesel" then "Sour Diesel"
  else if drug_id = "greencrack" then "Green Crack"
  else if drug_id = "granddaddypurple" then "Grandaddy Purple"
  else if drug_id = "cocaine" then "Cocaine"
  else if drug_id = "meth" then "Meth"
  else pyCapitalize drug_id

/-- The tail of `trace_recipe_chain`: map the (defaulted, hence truthy)
original strain to the display drug type; unmatched strains keep the
initial default "OG Kush". -/
def strainToType (strain : String) : String :=
  if strain = "ogkush" then "OG Kush"
  else if strain = "sourdiesel" then "Sour Diesel"
  else if strain = "greencrack" then "Green Crack"
  else if strain = "granddaddypurple" then "Grandaddy Purple"
  else if strain = "cocaine" then "Cocaine"
  else if strain = "meth" then "Meth"
  else "OG Kush"

/-- The ingredient-record construction loop of `trace_recipe_chain`
(`src/app.py:1392`): capitalize each resolved id, look it up in the
ingredient catalog; on a hit build a record with the catalog name and
price and quantity `1.0`, on a miss build a default record with the
capitalized id, quantity `1.0` and price `5.0`. -/
def ingredientRecords (db : List Ingredient) (ids : List String) : List Ingredient :=
  ids.map fun i =>
    let nm := pyCapitalize i
    match get_ingredient db nm with
    | some ing => ⟨ing.name, 1, ing.unit_price⟩
    | none => ⟨nm, 1, 5⟩

/-- `trace_recipe_chain(product_id, mix_recipes, discovered_products)`:
returns the ingredient records and the drug type.  `db` is the hard-coded
ingredient catalog (`self.ingredient_database.ingredients`);
`discovered = none` models the Python default argument. -/
def trace_recipe_chain (recipes : List Recipe) (db : List Ingredient)
    (product_id : String) (discovered : Option (List String)) :
    List Ingredient × String :=
  let discovered_products := discovered.getD defaultDiscovered
  if product_id ∈ baseStrains then
    ([], map_base_drug_to_type product_id)
  else
    let original := find_original_strain recipes product_id
    let strain :=
      match original with
      | none => "ogkush"
      | some s => if s = "" then "ogkush" else s
    let ids := traceIngredients recipes discovered_products (recipes.length + 1)
      product_id [] []
    (ingredientRecords db ids, strainToType strain)

/-! ## IEEE-754 binary64 semantics of the cost arithmetic

`Ingredient.quantity`, `Ingredient.unit_price` and the cost sums are
Python floats.  The rational fields above hold the exact values of those
doubles; the functions below replay the arithmetic the interpreter
actually performs on them: every product and every partial sum is rounded
to the nearest binary64 value (ties to even).  A double is represented by
a pair (m, E) denoting m * 2 ^ E, canonically with |m| in [2^52, 2^53) or
m = 0; overflow and subnormals are not modelled (every value in this
development is a normal double far from the range limits). -/

/-- Bit length of a natural number (structural recursion on a fuel that
always suffices). -/
def bitsAux : Nat → Nat → Nat
  | 0, _ => 0
  | f + 1, n => if n = 0 then 0 else bitsAux f (n / 2) + 1

/-- Bit length: `bitlen n` is the least `k` with `n < 2 ^ k`. -/
def bitlen (n : Nat) : Nat := bitsAux n n

/-- Whether `2 ^ e ≤ a / d` for a positive rational `a / d` and a possibly
negative exponent `e`. -/
def pow2Le (e : Int) (a d : Nat) : Bool :=
  if 0 ≤ e then d * 2 ^ e.toNat ≤ a else d ≤ a * 2 ^ (-e).toNat

/-- Round the rational `n / d` (`d ≠ 0`) to the nearest binary64 value,
ties to even: the result (m, E) denotes m * 2 ^ E with |m| in
[2^52, 2^53), or (0, 0) for zero.  The exponent of the leading bit is
located from the bit lengths of `n` and `d` and corrected by one
comparison; the 53-bit mantissa is obtained by integer division with a
round-half-to-even fixup, renormalizing when rounding carries into
2^53. -/
def floatRound (n : Int) (d : Nat) : Int × Int :=
  if n = 0 then (0, 0)
  else
    let a := n.natAbs
    let e0 : Int := (bitlen a : Int) - (bitlen d : Int)
    let e : Int := if pow2Le e0 a d then e0 else e0 - 1
    let shift : Int := 52 - e
    let N : Nat := if 0 ≤ shift then a * 2 ^ shift.toNat else a
    let D : Nat := if 0 ≤ shift then d else d * 2 ^ (-shift).toNat
    let q := N / D
    let r := N % D
    let m : Nat :=
      if 2 * r < D then q
      else if D < 2 * r then q + 1
      else if q % 2 = 0 then q else q + 1
    let me : Nat × Int := if m = 2 ^ 53 then (2 ^ 52, e + 1) else (m, e)
    (if n < 0 then -(me.1 : Int) else (me.1 : Int), me.2 - 52)

/-- The binary64 double nearest to a rational (the identity on values that
are already exact doubles, such as every float stored by the program). -/
def ratFloat (q : ℚ) : Int × Int := floatRound q.num q.den

/-- Binary64 addition: round the exact sum. -/
def floatAdd (x y : Int × Int) : Int × Int :=
  let emin := min x.2 y.2
  let N : Int := x.1 * 2 ^ (x.2 - emin).toNat + y.1 * 2 ^ (y.2 - emin).toNat
  let me := floatRound N 1
  if me.1 = 0 then (0, 0) else (me.1, me.2 + emin)

/-- Binary64 multiplication: round the exact product. -/
def floatMul (x y : Int × Int) : Int × Int :=
  let me := floatRound (x.1 * y.1) 1
  if me.1 = 0 then (0, 0) else (me.1, me.2 + x.2 + y.2)

/-- `Ingredient.total_cost` as the interpreter computes it: the binary64
product of the stored doubles. -/
def floatTotalCost (i : Ingredient) : Int × Int :=
  floatMul (ratFloat i.quantity) (ratFloat i.unit_price)

/-- `Drug.ingredient_cost` as the interpreter computes it: Python `sum`,
a left fold of binary64 additions starting from 0. -/
def floatIngredientCost (l : List Ingredient) : Int × Int :=
  l.foldl (fun acc i => floatAdd acc (floatTotalCost i)) (0, 0)

/-- The double written `0.1` in Python: exactly 3602879701896397 / 2^55. -/
def dbl01 : ℚ := ⟨3602879701896397, 36028797018963968, by norm_num, by norm_num⟩

/-- The double written `0.2` in Python: exactly 3602879701896397 / 2^54. -/
def dbl02 : ℚ := ⟨3602879701896397, 18014398509481984, by norm_num, by norm_num⟩

/-- The double written `0.3` in Python: exactly 5404319552844595 / 2^54. -/
def dbl03 : ℚ := ⟨5404319552844595, 18014398509481984, by norm_num, by norm_num⟩

/-- A catalog with unit prices 0.1, 0.2, 0.3 (as the doubles the program
stores after the add-ingredient dialog parses those literals). -/
def floatDb : List Ingredient :=
  [⟨"Cuke", 1, dbl01⟩, ⟨"Banana", 1, dbl02⟩, ⟨"Chili", 1, dbl03⟩]

/-! ## Helper lemmas -/

/-- A loop of `strainLoopShared` over recipes none of which outputs the
target leaves the state untouched and finds nothing. -/
theorem strainLoopShared_no_match
    (child : String → List String → Option String × List String)
    (rs : List Recipe) (target : String) (v : List String)
    (h : ∀ r ∈ rs, ¬ r.output = some target) :
    strainLoopShared child rs target v = (none, v) := by
  induction rs with
  | nil => rfl
  | cons r rs ih =>
    have hr : ¬ r.output = some target := h r (by simp)
    simp only [strainLoopShared, if_neg hr]
    exact ih (fun x hx => h x (by simp [hx]))

/-- Counting with a pointwise-stronger predicate counts at most as many
elements. -/
theorem countP_mono_of_imp {α : Type} (p q : α → Bool) (l : List α)
    (h : ∀ x ∈ l, p x = true → q x = true) :
    l.countP p ≤ l.countP q := by
  induction l with
  | nil => simp
  | cons a l ih =>
    have ih' := ih (fun x hx hpx => h x (List.mem_cons_of_mem a hx) hpx)
    rw [List.countP_cons, List.countP_cons]
    cases hp : p a with
    | false => cases hq : q a <;> simp [hp, hq] <;> omega
    | true =>
      have hq := h a (List.mem_cons_self a l) hp
      simp [hp, hq]
      omega

/-- Counting with a pointwise-stronger predicate that also misses a
witness the weaker one catches counts strictly fewer elements. -/
theorem countP_lt_of_imp {α : Type} (p q : α → Bool) :
    ∀ (l : List α), (∀ y ∈ l, p y = true → q y = true) →
      ∀ x, x ∈ l → p x = false → q x = true → l.countP p < l.countP q := by
  intro l
  induction l with
  | nil =>
    intro _ x hx
    cases hx
  | cons a l ih =>
    intro h x hx hpx hqx
    have hmono := countP_mono_of_imp p q l
      (fun y hy hpy => h y (List.mem_cons_of_mem a hy) hpy)
    rw [List.countP_cons, List.countP_cons]
    rcases List.mem_cons.mp hx with rfl | hxl
    · simp only [hpx, hqx]
      simp
      omega
    · have hlt := ih (fun y hy hpy => h y (List.mem_cons_of_mem a hy) hpy) x hxl hpx hqx
      cases hp : p a with
      | false => cases hq : q a <;> simp [hp, hq] <;> omega
      | true =>
        have hq := h a (List.mem_cons_self a l) hp
        simp [hp, hq]
        omega

/-- The fuel bound is at least 1. -/
theorem strainFuel_pos (recipes : List Recipe) (v : List String) :
    1 ≤ strainFuel recipes v :=
  Nat.le_add_left 1 _

/-- The fuel bound never exceeds the number of edges plus one. -/
theorem strainFuel_le (recipes : List Recipe) (v : List String) :
    strainFuel recipes v ≤ recipes.length + 1 := by
  unfold strainFuel
  have h1 : ((recipes.filterMap Recipe.output).dedup).countP
      (fun o => decide (o ∉ v)) ≤ (recipes.filterMap Recipe.output).dedup.length :=
    List.countP_le_length _
  have h2 : (recipes.filterMap Recipe.output).dedup.length ≤
      (recipes.filterMap Recipe.output).length :=
    (List.dedup_sublist _).length_le
  have h3 : (recipes.filterMap Recipe.output).length ≤ recipes.length :=
    List.length_filterMap_le _ _
  omega

/-- The fuel bound is antitone in the visited list. -/
theorem strainFuel_anti (recipes : List Recipe) (v w : List String) (h : v ⊆ w) :
    strainFuel recipes w ≤ strainFuel recipes v := by
  unfold strainFuel
  have := countP_mono_of_imp (fun o => decide (o ∉ w)) (fun o => decide (o ∉ v))
    ((recipes.filterMap Recipe.output).dedup)
    (fun x _ hx => by
      simp only [decide_eq_true_eq] at hx ⊢
      exact fun hv => hx (h hv))
  omega

/-- Visiting a fresh recipe output strictly lowers the fuel bound. -/
theorem strainFuel_cons_lt (recipes : List Recipe) (t : String) (v : List String)
    (ht : t ∈ recipes.filterMap Recipe.output) (hv : t ∉ v) :
    strainFuel recipes (t :: v) < strainFuel recipes v := by
  have h1 : t ∈ (recipes.filterMap Recipe.output).dedup := List.mem_dedup.mpr ht
  have := countP_lt_of_imp (fun o => decide (o ∉ t :: v)) (fun o => decide (o ∉ v))
    ((recipes.filterMap Recipe.output).dedup)
    (fun y _ hy => by
      simp only [decide_eq_true_eq, List.mem_cons, not_or] at hy ⊢
      exact hy.2)
    t h1 (by simp) (by simp [hv])
  unfold strainFuel
  omega

/-- A matching entry of `find?` is a member satisfying the predicate. -/
theorem find?_output_mem (recipes : List Recipe) (target : String) (r : Recipe)
    (h : recipes.find? (fun x => x.output = some target) = some r) :
    r ∈ recipes ∧ r.output = some target := by
  refine ⟨List.mem_of_find?_eq_some h, ?_⟩
  have := List.find?_some h
  simpa using this

/-- `traceIngredients` is fuel-independent above the `strainFuel` bound:
this is the termination of `trace_ingredients_backwards`. -/
theorem traceIngredients_stable (recipes : List Recipe) (drugs : List String) :
    ∀ f g target ids visited,
      strainFuel recipes visited ≤ f → strainFuel recipes visited ≤ g →
      traceIngredients recipes drugs f target ids visited =
      traceIngredients recipes drugs g target ids visited := by
  intro f
  induction f using Nat.strong_induction_on with
  | _ f IH =>
    intro g target ids visited hf hg
    have hposv := strainFuel_pos recipes visited
    obtain ⟨f1, rfl⟩ : ∃ f1, f = f1 + 1 := ⟨f - 1, by omega⟩
    obtain ⟨g1, rfl⟩ : ∃ g1, g = g1 + 1 := ⟨g - 1, by omega⟩
    by_cases hvis : target ∈ visited
    · simp [traceIngredients, hvis]
    · simp only [traceIngredients, if_neg hvis]
      cases hfind : recipes.find? (fun r => r.output = some target) with
      | none => simp
      | some r =>
        have hr := find?_output_mem recipes target r hfind
        have hout : target ∈ recipes.filterMap Recipe.output :=
          List.mem_filterMap.mpr ⟨r, hr.1, hr.2⟩
        have hlt := strainFuel_cons_lt recipes target visited hout hvis
        have hrec : ∀ x ids0,
            traceIngredients recipes drugs f1 x ids0 (target :: visited) =
            traceIngredients recipes drugs g1 x ids0 (target :: visited) :=
          fun x ids0 => IH f1 (by omega) g1 x ids0 _ (by omega) (by omega)
        simp only [hrec]

/-! ## Equivalence of the shared-visited and copy-visited semantics -/

/-- `copyChild` only depends on the child resolver extensionally. -/
theorem copyChild_congr (c1 c2 : String → Option String) (x : Option String)
    (h : ∀ m, c1 m = c2 m) : copyChild c1 x = copyChild c2 x := by
  cases x with
  | none => rfl
  | some c => simp [copyChild, h]

/-- `strainLoopCopy` only depends on the child resolver extensionally. -/
theorem strainLoopCopy_congr (c1 c2 : String → Option String)
    (h : ∀ m, c1 m = c2 m) :
    ∀ (rs : List Recipe) (target : String),
      strainLoopCopy c1 rs target = strainLoopCopy c2 rs target := by
  intro rs
  induction rs with
  | nil => intro target; rfl
  | cons r rs ih =>
    intro target
    by_cases hr : r.output = some target
    · simp only [strainLoopCopy, if_pos hr]
      rw [copyChild_congr c1 c2 r.mixer h]
      cases copyChild c2 r.mixer with
      | some s => rfl
      | none =>
        rw [copyChild_congr c1 c2 r.product h]
        cases copyChild c2 r.product with
        | some s => rfl
        | none => exact ih target
    · simp only [strainLoopCopy, if_neg hr]
      exact ih target

/-- The copy-semantics resolver only depends on the path through
membership. -/
theorem findStrainCopy_path_ext (recipes : List Recipe) :
    ∀ (f : Nat) (target : String) (P Q : List String),
      (∀ a : String, a ∈ P ↔ a ∈ Q) →
      findStrainCopy recipes f target P = findStrainCopy recipes f target Q := by
  intro f
  induction f with
  | zero => intro target P Q _; rfl
  | succ f ih =>
    intro target P Q h
    simp only [findStrainCopy]
    by_cases hp : target ∈ P
    · rw [if_pos hp, if_pos ((h target).mp hp)]
    · rw [if_neg hp, if_neg (fun hq => hp ((h target).mpr hq))]
      by_cases hb : target ∈ baseStrains
      · rw [if_pos hb, if_pos hb]
      · rw [if_neg hb, if_neg hb]
        apply strainLoopCopy_congr
        intro m
        exact ih m (target :: P) (target :: Q) (fun a => by simp [h a])

/-- A copy-semantics loop over recipes none of which outputs the target
finds nothing. -/
theorem strainLoopCopy_no_match (child : String → Option String)
    (rs : List Recipe) (target : String)
    (h : ∀ r ∈ rs, ¬ r.output = some target) :
    strainLoopCopy child rs target = none := by
  induction rs with
  | nil => rfl
  | cons r rs ih =>
    have hr : ¬ r.output = some target := h r (by simp)
    simp only [strainLoopCopy, if_neg hr]
    exact ih (fun x hx => h x (by simp [hx]))

/-- A non-strain target that no edge outputs is dead for every path. -/
theorem Dead_of_no_edge (recipes : List Recipe) (P : List String) (t : String)
    (hb : t ∉ baseStrains) (h : ∀ r ∈ recipes, ¬ r.output = some t) :
    Dead recipes P t := by
  intro g
  cases g with
  | zero => rfl
  | succ g =>
    simp only [findStrainCopy]
    by_cases hp : t ∈ P
    · rw [if_pos hp]
    · rw [if_neg hp, if_neg hb]
      exact strainLoopCopy_no_match _ _ _ h

/-- If the stronger child resolver succeeds wherever the weaker one does,
the same holds for the child branch. -/
theorem copyChild_isSome_mono (cA cB : String → Option String) (x : Option String)
    (h : ∀ m, (cA m).isSome = true → (cB m).isSome = true) :
    (copyChild cA x).isSome = true → (copyChild cB x).isSome = true := by
  cases x with
  | none => intro hx; simp [copyChild] at hx
  | some c =>
    simp only [copyChild]
    by_cases hc : c = ""
    · have hcf : ¬ (c ≠ "") := by simp [hc]
      rw [if_neg hcf, if_neg hcf]
      intro hx
      simp at hx
    · rw [if_pos hc, if_pos hc]
      by_cases hb : c ∈ baseStrains
      · rw [if_pos hb, if_pos hb]
        exact id
      · rw [if_neg hb, if_neg hb]
        exact h c

/-- If the stronger child resolver succeeds wherever the weaker one does,
a successful copy loop stays successful. -/
theorem strainLoopCopy_isSome_mono (cA cB : String → Option String)
    (h : ∀ m, (cA m).isSome = true → (cB m).isSome = true) :
    ∀ (rs : List Recipe) (target : String),
      (strainLoopCopy cA rs target).isSome = true →
      (strainLoopCopy cB rs target).isSome = true := by
  intro rs
  induction rs with
  | nil =>
    intro target hx
    simp [strainLoopCopy] at hx
  | cons r rs ih =>
    intro target hx
    by_cases hr : r.output = some target
    · simp only [strainLoopCopy, if_pos hr] at hx ⊢
      cases hbm : copyChild cB r.mixer with
      | some s => simp
      | none =>
        have ham : copyChild cA r.mixer = none := by
          cases ham : copyChild cA r.mixer with
          | none => rfl
          | some s =>
            have hmono := copyChild_isSome_mono cA cB r.mixer h (by simp [ham])
            rw [hbm] at hmono
            simp at hmono
        rw [ham] at hx
        cases hbp : copyChild cB r.product with
        | some s => simp
        | none =>
          have hap : copyChild cA r.product = none := by
            cases hap : copyChild cA r.product with
            | none => rfl
            | some s =>
              have hmono := copyChild_isSome_mono cA cB r.product h (by simp [hap])
              rw [hbp] at hmono
              simp at hmono
          rw [hap] at hx
          exact ih target hx
    · simp only [strainLoopCopy, if_neg hr] at hx ⊢
      exact ih target hx

/-- Shrinking the avoided path preserves success of the copy-semantics
resolver (at the same fuel). -/
theorem findStrainCopy_isSome_anti (recipes : List Recipe) :
    ∀ (f : Nat) (target : String) (P Q : List String), P ⊆ Q →
      (findStrainCopy recipes f target Q).isSome = true →
      (findStrainCopy recipes f target P).isSome = true := by
  intro f
  induction f with
  | zero =>
    intro target P Q _ hx
    simp [findStrainCopy] at hx
  | succ f ih =>
    intro target P Q hPQ hx
    simp only [findStrainCopy] at hx ⊢
    by_cases hq : target ∈ Q
    · rw [if_pos hq] at hx
      simp at hx
    · have hp : target ∉ P := fun hmem => hq (hPQ hmem)
      rw [if_neg hq] at hx
      rw [if_neg hp]
      by_cases hb : target ∈ baseStrains
      · rw [if_pos hb]
        simp
      · rw [if_neg hb] at hx ⊢
        exact strainLoopCopy_isSome_mono _ _
          (fun m => ih m (target :: P) (target :: Q) (List.cons_subset_cons _ hPQ))
          recipes target hx

/-- Raising the fuel preserves success of the copy-semantics resolver. -/
theorem findStrainCopy_isSome_fuel_mono (recipes : List Recipe) :
    ∀ (f g : Nat) (target : String) (P : List String), f ≤ g →
      (findStrainCopy recipes f target P).isSome = true →
      (findStrainCopy recipes g target P).isSome = true := by
  intro f
  induction f with
  | zero =>
    intro g target P _ hx
    simp [findStrainCopy] at hx
  | succ f ih =>
    intro g target P hfg hx
    obtain ⟨g1, rfl⟩ : ∃ g1, g = g1 + 1 := ⟨g - 1, by omega⟩
    simp only [findStrainCopy] at hx ⊢
    by_cases hp : target ∈ P
    · rw [if_pos hp] at hx
      simp at hx
    · rw [if_neg hp] at hx ⊢
      by_cases hb : target ∈ baseStrains
      · rw [if_pos hb]
        simp
      · rw [if_neg hb] at hx ⊢
        exact strainLoopCopy_isSome_mono _ _
          (fun m => ih g1 m (target :: P) (by omega)) recipes target hx

/-- Adding a dead node to the avoided path preserves success: pruning a
subtree that finds nothing anyway cannot change a successful search. -/
theorem findStrainCopy_isSome_dead_ext (recipes : List Recipe) :
    ∀ (f : Nat) (t : String) (P : List String) (target : String),
      (∀ g, findStrainCopy recipes g t P = none) →
      (findStrainCopy recipes f target P).isSome = true →
      (findStrainCopy recipes f target (t :: P)).isSome = true := by
  intro f
  induction f with
  | zero =>
    intro t P target _ hx
    simp [findStrainCopy] at hx
  | succ f ih =>
    intro t P target hdead hx
    have hne : target ≠ t := by
      intro h
      subst h
      rw [hdead (f + 1)] at hx
      simp at hx
    simp only [findStrainCopy] at hx ⊢
    by_cases hp : target ∈ P
    · rw [if_pos hp] at hx
      simp at hx
    · have hp2 : target ∉ t :: P := by
        simp only [List.mem_cons, not_or]
        exact ⟨hne, hp⟩
      rw [if_neg hp] at hx
      rw [if_neg hp2]
      by_cases hb : target ∈ baseStrains
      · rw [if_pos hb]
        simp
      · rw [if_neg hb] at hx ⊢
        apply strainLoopCopy_isSome_mono _ _ ?_ recipes target hx
        intro m hm
        have hdead2 : ∀ g, findStrainCopy recipes g t (target :: P) = none := by
          intro g
          cases hgt : findStrainCopy recipes g t (target :: P) with
          | none => rfl
          | some s =>
            have h1 := findStrainCopy_isSome_anti recipes g t P (target :: P)
              (List.subset_cons_self _ _) (by simp [hgt])
            rw [hdead g] at h1
            simp at h1
        have h2 := ih t (target :: P) m hdead2 hm
        have hext := findStrainCopy_path_ext recipes f m (t :: target :: P)
          (target :: t :: P) (fun a => by constructor <;> (intro hmem; simp at hmem ⊢; tauto))
        rw [hext] at h2
        exact h2

/-- The copy-semantics resolver is fuel-independent above the `strainFuel`
bound. -/
theorem findStrainCopy_stable (recipes : List Recipe) :
    ∀ (f g : Nat) (target : String) (P : List String),
      strainFuel recipes P ≤ f → strainFuel recipes P ≤ g →
      findStrainCopy recipes f target P = findStrainCopy recipes g target P := by
  intro f
  induction f using Nat.strong_induction_on with
  | _ f IH =>
    intro g target P hf hg
    have hpos := strainFuel_pos recipes P
    obtain ⟨f1, rfl⟩ : ∃ f1, f = f1 + 1 := ⟨f - 1, by omega⟩
    obtain ⟨g1, rfl⟩ : ∃ g1, g = g1 + 1 := ⟨g - 1, by omega⟩
    simp only [findStrainCopy]
    by_cases hp : target ∈ P
    · rw [if_pos hp, if_pos hp]
    · rw [if_neg hp, if_neg hp]
      by_cases hb : target ∈ baseStrains
      · rw [if_pos hb, if_pos hb]
      · rw [if_neg hb, if_neg hb]
        by_cases hmatch : ∀ r ∈ recipes, ¬ r.output = some target
        · rw [strainLoopCopy_no_match _ _ _ hmatch, strainLoopCopy_no_match _ _ _ hmatch]
        · push_neg at hmatch
          obtain ⟨r, hrmem, hro⟩ := hmatch
          have hout : target ∈ recipes.filterMap Recipe.output :=
            List.mem_filterMap.mpr ⟨r, hrmem, hro⟩
          have hlt := strainFuel_cons_lt recipes target P hout hp
          apply strainLoopCopy_congr
          intro m
          exact IH f1 (by omega) g1 m (target :: P) (by omega) (by omega)

/-- A node on which the copy-semantics resolver fails at sufficient fuel is
dead outright. -/
theorem Dead_of_none (recipes : List Recipe) (P : List String) (t : String)
    (f : Nat) (hf : strainFuel recipes P ≤ f)
    (h : findStrainCopy recipes f t P = none) : Dead recipes P t := by
  intro g
  by_cases hg : g ≤ f
  · cases hx : findStrainCopy recipes g t P with
    | none => rfl
    | some s =>
      have := findStrainCopy_isSome_fuel_mono recipes g f t P hg (by simp [hx])
      rw [h] at this
      simp at this
  · rw [findStrainCopy_stable recipes g f t P (by omega) hf, h]

/-- Deadness is preserved by growing the path. -/
theorem Dead_mono (recipes : List Recipe) (P Q : List String) (q : String)
    (hPQ : P ⊆ Q) (hd : Dead recipes P q) : Dead recipes Q q := by
  intro g
  cases hx : findStrainCopy recipes g q Q with
  | none => rfl
  | some s =>
    have h2 := findStrainCopy_isSome_anti recipes g q P Q hPQ (by simp [hx])
    rw [hd g] at h2
    simp at h2

/-- A node dead for the path extended by a dead node is dead for the path
itself. -/
theorem Dead_unext (recipes : List Recipe) (P : List String) (t q : String)
    (hdt : Dead recipes P t) (hdq : Dead recipes (t :: P) q) :
    Dead recipes P q := by
  intro g
  cases hx : findStrainCopy recipes g q P with
  | none => rfl
  | some s =>
    have h1 := findStrainCopy_isSome_dead_ext recipes g t P q hdt (by simp [hx])
    rw [hdq g] at h1
    simp at h1

/-- One child branch of the recipe loop simulates: given the inner
simulation hypothesis, the shared branch result equals the copy branch
result, the visited list only grows, and on failure the invariant is
restored. -/
theorem childStep_sim (recipes : List Recipe) (f1 g1 : Nat) (P1 : List String)
    (hsim : ∀ (t : String) (V : List String),
      Inv recipes P1 V → strainFuel recipes V ≤ f1 →
      (findStrainShared recipes f1 t V).1 = findStrainCopy recipes g1 t P1 ∧
      V ⊆ (findStrainShared recipes f1 t V).2 ∧
      ((findStrainShared recipes f1 t V).1 = none →
        Inv recipes P1 (findStrainShared recipes f1 t V).2))
    (x : Option String) (W : List String)
    (hInvW : Inv recipes P1 W) (hfW : strainFuel recipes W ≤ f1) :
    (sharedChild (fun m vm => findStrainShared recipes f1 m vm) x W).1
      = copyChild (fun m => findStrainCopy recipes g1 m P1) x ∧
    W ⊆ (sharedChild (fun m vm => findStrainShared recipes f1 m vm) x W).2 ∧
    ((sharedChild (fun m vm => findStrainShared recipes f1 m vm) x W).1 = none →
      Inv recipes P1 (sharedChild (fun m vm => findStrainShared recipes f1 m vm) x W).2) := by
  cases x with
  | none => exact ⟨rfl, List.Subset.refl W, fun _ => hInvW⟩
  | some c =>
    simp only [sharedChild, copyChild]
    by_cases hc : c = ""
    · have hcf : ¬ (c ≠ "") := by simp [hc]
      rw [if_neg hcf, if_neg hcf]
      exact ⟨rfl, List.Subset.refl W, fun _ => hInvW⟩
    · rw [if_pos hc, if_pos hc]
      by_cases hb : c ∈ baseStrains
      · rw [if_pos hb, if_pos hb]
        exact ⟨rfl, List.Subset.refl W, fun _ => hInvW⟩
      · rw [if_neg hb, if_neg hb]
        exact hsim c W hInvW hfW

/-- The recipe loop simulates: the shared loop result equals the copy loop
result, the visited list only grows, and on failure the invariant is
restored. -/
theorem strainLoop_sim (recipes : List Recipe) (f1 g1 : Nat) (P1 : List String)
    (hsim : ∀ (t : String) (V : List String),
      Inv recipes P1 V → strainFuel recipes V ≤ f1 →
      (findStrainShared recipes f1 t V).1 = findStrainCopy recipes g1 t P1 ∧
      V ⊆ (findStrainShared recipes f1 t V).2 ∧
      ((findStrainShared recipes f1 t V).1 = none →
        Inv recipes P1 (findStrainShared recipes f1 t V).2)) :
    ∀ (rs : List Recipe) (target : String) (W : List String),
      Inv recipes P1 W → strainFuel recipes W ≤ f1 →
      (strainLoopShared (fun m vm => findStrainShared recipes f1 m vm) rs target W).1
        = strainLoopCopy (fun m => findStrainCopy recipes g1 m P1) rs target ∧
      W ⊆ (strainLoopShared (fun m vm => findStrainShared recipes f1 m vm) rs target W).2 ∧
      ((strainLoopShared (fun m vm => findStrainShared recipes f1 m vm) rs target W).1 = none →
        Inv recipes P1
          (strainLoopShared (fun m vm => findStrainShared recipes f1 m vm) rs target W).2) := by
  intro rs
  induction rs with
  | nil =>
    intro target W hInvW hfW
    exact ⟨rfl, List.Subset.refl W, fun _ => hInvW⟩
  | cons r rs ih =>
    intro target W hInvW hfW
    by_cases hr : r.output = some target
    · obtain ⟨hm1, hm2, hm3⟩ := childStep_sim recipes f1 g1 P1 hsim r.mixer W hInvW hfW
      simp only [strainLoopShared, strainLoopCopy, if_pos hr]
      rcases hms : sharedChild (fun m vm => findStrainShared recipes f1 m vm) r.mixer W
        with ⟨resM, W2⟩
      rw [hms] at hm1 hm2 hm3
      simp only at hm1 hm2 hm3
      rw [← hm1]
      cases resM with
      | some s => exact ⟨rfl, hm2, fun h => by simp at h⟩
      | none =>
        have hInv2 : Inv recipes P1 W2 := hm3 rfl
        have hf2 : strainFuel recipes W2 ≤ f1 :=
          le_trans (strainFuel_anti recipes W W2 hm2) hfW
        obtain ⟨hp1, hp2, hp3⟩ := childStep_sim recipes f1 g1 P1 hsim r.product W2 hInv2 hf2
        rcases hps : sharedChild (fun m vm => findStrainShared recipes f1 m vm) r.product W2
          with ⟨resP, W3⟩
        rw [hps] at hp1 hp2 hp3
        simp only at hp1 hp2 hp3
        dsimp only
        rw [hps, ← hp1]
        cases resP with
        | some s => exact ⟨rfl, List.Subset.trans hm2 hp2, fun h => by simp at h⟩
        | none =>
          have hInv3 : Inv recipes P1 W3 := hp3 rfl
          have hf3 : strainFuel recipes W3 ≤ f1 :=
            le_trans (strainFuel_anti recipes W2 W3 hp2) hf2
          obtain ⟨ht1, ht2, ht3⟩ := ih target W3 hInv3 hf3
          exact ⟨ht1, List.Subset.trans hm2 (List.Subset.trans hp2 ht2), ht3⟩
    · simp only [strainLoopShared, strainLoopCopy, if_neg hr]
      exact ih target W hInvW hfW

/-- Main simulation: under the invariant, the shared-visited resolver and
the copy-visited resolver return the same result; the visited list only
grows; and when the search fails, every newly visited node is dead for the
caller's path, restoring the invariant. -/
theorem findStrain_sim (recipes : List Recipe) :
    ∀ (f g : Nat) (target : String) (P V : List String),
      Inv recipes P V → strainFuel recipes V ≤ f → strainFuel recipes P ≤ g →
      (findStrainShared recipes f target V).1 = findStrainCopy recipes g target P ∧
      V ⊆ (findStrainShared recipes f target V).2 ∧
      ((findStrainShared recipes f target V).1 = none →
        Inv recipes P (findStrainShared recipes f target V).2) := by
  intro f
  induction f using Nat.strong_induction_on with
  | _ f IH =>
    intro g target P V hInv hfV hgP
    obtain ⟨f1, rfl⟩ : ∃ f1, f = f1 + 1 :=
      ⟨f - 1, by have := strainFuel_pos recipes V; omega⟩
    obtain ⟨g1, rfl⟩ : ∃ g1, g = g1 + 1 :=
      ⟨g - 1, by have := strainFuel_pos recipes P; omega⟩
    by_cases hv : target ∈ V
    · have hshared : findStrainShared recipes (f1 + 1) target V = (none, V) := by
        simp [findStrainShared, hv]
      rw [hshared]
      by_cases hp : target ∈ P
      · have hcopy : findStrainCopy recipes (g1 + 1) target P = none := by
          simp [findStrainCopy, hp]
        exact ⟨by rw [hcopy], List.Subset.refl V, fun _ => hInv⟩
      · have hdead := hInv.2 target hv hp
        exact ⟨(hdead (g1 + 1)).symm, List.Subset.refl V, fun _ => hInv⟩
    · have hp : target ∉ P := fun hmem => hv (hInv.1 hmem)
      by_cases hb : target ∈ baseStrains
      · have hshared : findStrainShared recipes (f1 + 1) target V
            = (some target, target :: V) := by
          simp [findStrainShared, hv, hb]
        have hcopy : findStrainCopy recipes (g1 + 1) target P = some target := by
          simp [findStrainCopy, hp, hb]
        rw [hshared, hcopy]
        exact ⟨rfl, List.subset_cons_self _ _, fun h => by simp at h⟩
      · have hshared : findStrainShared recipes (f1 + 1) target V =
            strainLoopShared (fun m vm => findStrainShared recipes f1 m vm)
              recipes target (target :: V) := by
          simp [findStrainShared, hv, hb]
        have hcopy : findStrainCopy recipes (g1 + 1) target P =
            strainLoopCopy (fun m => findStrainCopy recipes g1 m (target :: P))
              recipes target := by
          simp [findStrainCopy, hp, hb]
        rw [hshared, hcopy]
        by_cases hmatch : ∀ r ∈ recipes, ¬ r.output = some target
        · rw [strainLoopShared_no_match _ _ _ _ hmatch, strainLoopCopy_no_match _ _ _ hmatch]
          refine ⟨rfl, List.subset_cons_self _ _, fun _ => ⟨?_, ?_⟩⟩
          · exact List.Subset.trans hInv.1 (List.subset_cons_self _ _)
          · intro q hq hqP
            rcases List.mem_cons.mp hq with rfl | hqV
            · exact Dead_of_no_edge recipes P q hb hmatch
            · exact hInv.2 q hqV hqP
        · push_neg at hmatch
          obtain ⟨r, hrmem, hro⟩ := hmatch
          have hout : target ∈ recipes.filterMap Recipe.output :=
            List.mem_filterMap.mpr ⟨r, hrmem, hro⟩
          have hfV1 : strainFuel recipes (target :: V) ≤ f1 := by
            have := strainFuel_cons_lt recipes target V hout hv
            omega
          have hgP1 : strainFuel recipes (target :: P) ≤ g1 := by
            have := strainFuel_cons_lt recipes target P hout hp
            omega
          have hInv1 : Inv recipes (target :: P) (target :: V) := by
            refine ⟨List.cons_subset_cons _ hInv.1, ?_⟩
            intro q hq hqP1
            have hqt : q ≠ target := fun hq2 => hqP1 (hq2 ▸ List.mem_cons_self _ _)
            rcases List.mem_cons.mp hq with rfl | hqV
            · exact absurd rfl hqt
            · have hqP : q ∉ P := fun hq2 => hqP1 (List.mem_cons_of_mem _ hq2)
              exact Dead_mono recipes P (target :: P) q (List.subset_cons_self _ _)
                (hInv.2 q hqV hqP)
          have hsim : ∀ (t : String) (W : List String),
              Inv recipes (target :: P) W → strainFuel recipes W ≤ f1 →
              (findStrainShared recipes f1 t W).1
                = findStrainCopy recipes g1 t (target :: P) ∧
              W ⊆ (findStrainShared recipes f1 t W).2 ∧
              ((findStrainShared recipes f1 t W).1 = none →
                Inv recipes (target :: P) (findStrainShared recipes f1 t W).2) :=
            fun t W hI hW => IH f1 (by omega) g1 t (target :: P) W hI hW hgP1
          obtain ⟨hl1, hl2, hl3⟩ := strainLoop_sim recipes f1 g1 (target :: P) hsim
            recipes target (target :: V) hInv1 hfV1
          refine ⟨hl1, List.Subset.trans (List.subset_cons_self _ _) hl2, fun hres => ?_⟩
          have hInvP1 := hl3 hres
          have hcopynone : strainLoopCopy
              (fun m => findStrainCopy recipes g1 m (target :: P)) recipes target = none := by
            rw [← hl1]
            exact hres
          have hdeadT : Dead recipes P target := by
            apply Dead_of_none recipes P target (g1 + 1) (by omega)
            rw [hcopy]
            exact hcopynone
          refine ⟨List.Subset.trans hInv.1
            (List.Subset.trans (List.subset_cons_self _ _) hl2), ?_⟩
          intro q hq hqP
          by_cases hqt : q = target
          · subst hqt
            exact hdeadT
          · have hqP1 : q ∉ target :: P := by
              simp only [List.mem_cons, not_or]
              exact ⟨hqt, hqP⟩
            exact Dead_unext recipes P target q hdeadT (hInvP1.2 q hq hqP1)

/-! ## Theorems for the claims -/

/-- Claim C1: for every edge list and every target, `find_original_strain`
(which in the code threads one shared mutable visited set through all
recursive calls) behaves as if each recursive call received an independent
copy of the visited set: its result always equals that of the copy-visited
resolver, in which resolving one input branch leaves the visited state seen
by the sibling branch unchanged and the same identifier occurring in two
branches is resolved in both without falsely triggering the cycle guard. -/
theorem find_original_strain_copy_equiv (recipes : List Recipe) (target : String) :
    find_original_strain recipes target = findOriginalStrainCopy recipes target := by
  have hInv : Inv recipes [] [] :=
    ⟨List.Subset.refl [], fun q hq _ => absurd hq (List.not_mem_nil q)⟩
  have h := findStrain_sim recipes (recipes.length + 1) (recipes.length + 1) target [] []
    hInv (strainFuel_le recipes []) (strainFuel_le recipes [])
  exact h.1

/-- Claim C6: for every target identifier in the fixed base-strain set and
every edge list (even one that would recurse without bound if consulted), a
top-level `find_original_strain` call returns that identifier unchanged and
never examines the edge list. -/
theorem find_original_strain_base (recipes : List Recipe) (target : String)
    (h : target ∈ baseStrains) :
    find_original_strain recipes target = some target := by
  simp [find_original_strain, findStrainShared, h]

/-- Witness for C6 on a cyclic edge list. -/
theorem find_original_strain_base_witness :
    "meth" ∈ baseStrains ∧
      find_original_strain [⟨some "meth", some "meth", some "meth"⟩] "meth" = some "meth" :=
  ⟨by decide, find_original_strain_base _ _ (by decide)⟩

/-- Claim C7: a target that is not a base strain and is not the output of
any edge resolves to `none` (and no exception: the function is total); and
whenever `find_original_strain` returns `none` for a non-base-drug product,
`trace_recipe_chain` substitutes the default strain, so its drug type is
"OG Kush". -/
theorem find_original_strain_unresolvable (recipes : List Recipe)
    (db : List Ingredient) (discovered : Option (List String)) (target : String)
    (h1 : target ∉ baseStrains) :
    ((∀ r ∈ recipes, ¬ r.output = some target) →
      find_original_strain recipes target = none) ∧
    (find_original_strain recipes target = none →
      (trace_recipe_chain recipes db target discovered).2 = "OG Kush") := by
  constructor
  · intro h2
    simp [find_original_strain, findStrainShared, h1,
      strainLoopShared_no_match _ _ _ _ h2]
  · intro hfind
    simp [trace_recipe_chain, h1, hfind, strainToType]

/-- Witness for C7. -/
theorem find_original_strain_unresolvable_witness :
    find_original_strain [⟨some "b", some "c", some "d"⟩] "a" = none ∧
      (trace_recipe_chain [⟨some "b", some "c", some "d"⟩] [] "a" none).2 = "OG Kush" := by
  have h := find_original_strain_unresolvable [⟨some "b", some "c", some "d"⟩] [] none "a"
    (by decide)
  exact ⟨h.1 (by decide), h.2 (h.1 (by decide))⟩

/-- Claim C8: every ingredient record `trace_recipe_chain` builds from a
resolved base-ingredient identifier has quantity exactly `1.0`, and its
unit price is the catalog price of the capitalized identifier when the
catalog has it, and the default `5.0` otherwise. -/
theorem trace_recipe_records (db : List Ingredient) (ids : List String)
    (i : Nat) (hi : i < ids.length) :
    ∃ r, (ingredientRecords db ids)[i]? = some r ∧ r.quantity = 1 ∧
      r.unit_price =
        (get_ingredient db (pyCapitalize (ids.get ⟨i, hi⟩))).elim 5 Ingredient.unit_price := by
  have hget : ids.get ⟨i, hi⟩ = ids[i] := List.get_eq_getElem ids ⟨i, hi⟩
  have hid : ids[i]? = some ids[i] := List.getElem?_eq_getElem hi
  cases hdb : get_ingredient db (pyCapitalize ids[i]) with
  | none =>
    refine ⟨⟨pyCapitalize ids[i], 1, 5⟩, ?_, rfl, by simp [hget, hdb]⟩
    simp [ingredientRecords, List.getElem?_map, hid, hdb]
  | some g =>
    refine ⟨⟨g.name, 1, g.unit_price⟩, ?_, rfl, by simp [hget, hdb]⟩
    simp [ingredientRecords, List.getElem?_map, hid, hdb]

/-- Witness for C8: one catalog hit ("Cuke", price 2) and one miss. -/
theorem trace_recipe_records_witness :
    (∃ r, (ingredientRecords [⟨"Cuke", 1, 2⟩] ["cuke", "weird"])[0]? = some r ∧
      r.quantity = 1 ∧
      r.unit_price = (get_ingredient [⟨"Cuke", 1, 2⟩]
        (pyCapitalize (["cuke", "weird"].get ⟨0, by decide⟩))).elim 5 Ingredient.unit_price) ∧
    (∃ r, (ingredientRecords [⟨"Cuke", 1, 2⟩] ["cuke", "weird"])[1]? = some r ∧
      r.quantity = 1 ∧
      r.unit_price = (get_ingredient [⟨"Cuke", 1, 2⟩]
        (pyCapitalize (["cuke", "weird"].get ⟨1, by decide⟩))).elim 5 Ingredient.unit_price) :=
  ⟨trace_recipe_records _ _ 0 (by decide), trace_recipe_records _ _ 1 (by decide)⟩

set_option maxRecDepth 40000 in
/-- Counterexample for claim C9: the program sums the ingredient costs in
IEEE-754 binary64 arithmetic, and that sum is not permutation-invariant.
With catalog prices 0.1, 0.2, 0.3 (stored as the exact doubles `dbl01`,
`dbl02`, `dbl03`), the records built by `trace_recipe_chain` from the
resolved list [cuke, banana, chili] sum to the double 0.6000000000000001
(mantissa 5404319552844596), while the permuted list [chili, banana, cuke]
sums to the double 0.6 (mantissa 5404319552844595): the claimed invariance
fails on the code at this concrete input. -/
theorem ingredient_cost_perm_float_counterexample :
    List.Perm ["cuke", "banana", "chili"] ["chili", "banana", "cuke"] ∧
    floatIngredientCost (ingredientRecords floatDb ["cuke", "banana", "chili"])
      = (5404319552844596, -53) ∧
    floatIngredientCost (ingredientRecords floatDb ["chili", "banana", "cuke"])
      = (5404319552844595, -53) ∧
    floatIngredientCost (ingredientRecords floatDb ["cuke", "banana", "chili"])
      ≠ floatIngredientCost (ingredientRecords floatDb ["chili", "banana", "cuke"]) :=
  ⟨by decide, by decide, by decide, by decide⟩

/-- Claim C9 (amended): in exact arithmetic the ingredient-cost total of
the records built from a list of resolved base-ingredient identifiers is
invariant under permutation of that list; the program computes this sum in
binary64 floats, where reordering can change the total by rounding (see
the counterexample above), so the invariance holds for the exact values
but not for the float program. -/
theorem ingredient_cost_perm (db : List Ingredient) (ids1 ids2 : List String)
    (nm : String) (bp : ℚ) (es : List Effect) (nt ty : String) (fv : Bool)
    (h : ids1.Perm ids2) :
    (Drug.mk nm bp (ingredientRecords db ids1) es nt ty fv).ingredient_cost =
    (Drug.mk nm bp (ingredientRecords db ids2) es nt ty fv).ingredient_cost := by
  simpa [Drug.ingredient_cost, ingredientRecords] using
    List.Perm.sum_eq (List.Perm.map _ (List.Perm.map _ h))

/-- Witness for C9. -/
theorem ingredient_cost_perm_witness :
    (Drug.mk "d" 10 (ingredientRecords [⟨"Cuke", 1, 2⟩] ["cuke", "banana"])
      [] "" "Weed" false).ingredient_cost =
    (Drug.mk "d" 10 (ingredientRecords [⟨"Cuke", 1, 2⟩] ["banana", "cuke"])
      [] "" "Weed" false).ingredient_cost :=
  ingredient_cost_perm _ _ _ _ _ _ _ _ _ (by decide)

/-- Claim C10: `Drug.profit_margin` is total and never divides by zero: it
is `0` whenever the ingredient cost is `0` (in particular for an empty
ingredient list), and `((base_price - ingredient_cost) / ingredient_cost)
* 100` otherwise. -/
theorem profit_margin_total (d : Drug) :
    (d.ingredients = [] → d.profit_margin = 0) ∧
    (d.ingredient_cost = 0 → d.profit_margin = 0) ∧
    (d.ingredient_cost ≠ 0 →
      d.profit_margin = ((d.base_price - d.ingredient_cost) / d.ingredient_cost) * 100) := by
  refine ⟨fun h => ?_, fun h => ?_, fun h => ?_⟩
  · simp [Drug.profit_margin, Drug.ingredient_cost, h]
  · simp [Drug.profit_margin, h]
  · simp [Drug.profit_margin, h]

/-- Witness for C10: an empty-ingredient drug and a drug with nonzero
cost. -/
theorem profit_margin_total_witness :
    (Drug.mk "d" 10 [] [] "" "Weed" false).profit_margin = 0 ∧
    (Drug.mk "e" 10 [⟨"Cuke", 1, 2⟩] [] "" "Weed" false).profit_margin =
      ((10 - (Drug.mk "e" 10 [⟨"Cuke", 1, 2⟩] [] "" "Weed" false).ingredient_cost) /
        (Drug.mk "e" 10 [⟨"Cuke", 1, 2⟩] [] "" "Weed" false).ingredient_cost) * 100 :=
  ⟨(profit_margin_total _).1 rfl,
    (profit_margin_total _).2.2
      (by norm_num [Drug.ingredient_cost, Ingredient.total_cost])⟩

/-- Claim C2: in `trace_ingredients_backwards` the immediate leaf inputs of
an edge are gathered in (product, mixer) order and appended reversed
(mixer-leaf before product-leaf) after the recursive expansions; on the
fixture Top -> (product Mid, mixer LeafA), Mid -> (product LeafB, mixer
LeafC) with Mid a known product, the result is exactly
[LeafC, LeafB, LeafA]. -/
theorem trace_ingredients_order :
    trace_ingredients_backwards
      [⟨some "top", some "mid", some "leafa"⟩, ⟨some "mid", some "leafb", some "leafc"⟩]
      ["mid"] "top" = ["leafc", "leafb", "leafa"] ∧
    ∀ (recipes : List Recipe) (drugs : List String) (fuel : Nat)
      (target p m : String) (ids visited : List String),
      target ∉ visited →
      recipes.find? (fun r => r.output = some target) = some ⟨some target, some p, some m⟩ →
      p ≠ "" → m ≠ "" → p ∉ drugs → m ∉ drugs →
      traceIngredients recipes drugs (fuel + 1) target ids visited = ids ++ [m, p] := by
  constructor
  · decide
  · intro recipes drugs fuel target p m ids visited hv hfind hp hm hpd hmd
    simp [traceIngredients, traceProductStep, traceMixerStep, hv, hfind, hp, hm, hpd, hmd]

/-- Witness for C2's general conjunct, at the Mid edge of the fixture. -/
theorem trace_ingredients_order_witness :
    traceIngredients
      [⟨some "top", some "mid", some "leafa"⟩, ⟨some "mid", some "leafb", some "leafc"⟩]
      ["mid"] 1 "mid" [] ["top"] = [] ++ ["leafc", "leafb"] :=
  trace_ingredients_order.2 _ _ 0 _ _ _ _ _ (by decide) (by decide)
    (by decide) (by decide) (by decide) (by decide)

/-- Claim C3: on the diamond A -> (B, C), B -> (X, Y), C -> (X, Z) with B
and C known products and X, Y, Z leaves, the result contains X twice —
duplicates reached through different branches are preserved. -/
theorem trace_ingredients_diamond :
    trace_ingredients_backwards
      [⟨some "a", some "b", some "c"⟩, ⟨some "b", some "x", some "y"⟩,
        ⟨some "c", some "x", some "z"⟩]
      ["b", "c"] "a" = ["y", "x", "z", "x"] ∧
    (trace_ingredients_backwards
      [⟨some "a", some "b", some "c"⟩, ⟨some "b", some "x", some "y"⟩,
        ⟨some "c", some "x", some "z"⟩]
      ["b", "c"] "a").count "x" = 2 := by
  constructor
  · decide
  · decide

/-- Claim C4: `trace_ingredients_backwards` terminates on every finite edge
list, including cyclic ones: its fuel interpretation is fuel-independent
once the fuel reaches the `strainFuel` bound (an identifier already on the
current path's visited set is never expanded again, so the expansion depth
is bounded by the number of distinct edge outputs); and on the cyclic edge
list A -> (product A, mixer X) with A known and X not, the result is
exactly [X]. -/
theorem trace_ingredients_terminates :
    (∀ (recipes : List Recipe) (drugs : List String) (f g : Nat) (target : String)
       (ids visited : List String),
       strainFuel recipes visited ≤ f → strainFuel recipes visited ≤ g →
       traceIngredients recipes drugs f target ids visited =
       traceIngredients recipes drugs g target ids visited) ∧
    trace_ingredients_backwards [⟨some "a", some "a", some "x"⟩] ["a"] "a" = ["x"] :=
  ⟨fun recipes drugs f g t ids v hf hg =>
     traceIngredients_stable recipes drugs f g t ids v hf hg, by decide⟩

/-- Witness for C4 on the cyclic edge list, at two different fuels. -/
theorem trace_ingredients_terminates_witness :
    traceIngredients [⟨some "a", some "a", some "x"⟩] ["a"] 2 "a" [] [] =
    traceIngredients [⟨some "a", some "a", some "x"⟩] ["a"] 50 "a" [] [] :=
  trace_ingredients_terminates.1 _ _ 2 50 _ _ _ (by decide) (by decide)

/-- Claim C5: on the two-level chain A -> (product S, mixer X) with S a
base strain and X unresolvable, `find_original_strain` returns S (the
mixer is inspected first, and the first strain found is returned), and
`trace_ingredients_backwards` with S known returns exactly [X]. -/
theorem two_level_chain :
    find_original_strain [⟨some "a", some "sourdiesel", some "x"⟩] "a" = some "sourdiesel" ∧
    trace_ingredients_backwards [⟨some "a", some "sourdiesel", some "x"⟩]
      ["sourdiesel"] "a" = ["x"] := by
  constructor
  · decide
  · decide

end Schedule1
